import Mathlib

/-!
Shallow embedding of the Options-Pricing / Greeks / Hedging simulator.

The pricing code of the repository (function calculateBlackScholes and
calculateBinomial in the TypeScript pricing module) is embedded over the
real numbers: every JavaScript float expression becomes the corresponding
real-number expression.  Parts of the engine that the repository only
documents (the Python pricing.py / hedging.py modules referenced by the
Dockerfile and the API docs, but whose source is not present) are modelled
from the specification and marked as such in their doc comments.
-/

namespace OptionsSim

noncomputable section

open Real

/-- Option type of a vanilla option, the string union of the source. -/
inductive OptionType
  | call
  | put
deriving DecidableEq, Repr

/-- Greeks record returned by both pricers. -/
structure Greeks where
  delta : ℝ
  gamma : ℝ
  theta : ℝ
  vega : ℝ
  rho : ℝ

/-- Result record of the pricers: a price together with the Greeks. -/
structure PricingResult where
  price : ℝ
  greeks : Greeks

/-- Parameter object of calculateBlackScholes and calculateBinomial. -/
structure PricingParams where
  spotPrice : ℝ
  strikePrice : ℝ
  timeToMaturity : ℝ
  riskFreeRate : ℝ
  volatility : ℝ
  optionType : OptionType

/-- Inner polynomial of the Abramowitz-Stegun style cumulative-normal
approximation used by calculateBlackScholes, in the nested (Horner) form
of the source. -/
def polyN (t : ℝ) : ℝ :=
  0.3193815 + t * (-0.3565638 + t * (1.781478 + t * (-1.821256 + t * 1.330274)))

/-- The value t = 1 / (1 + 0.2316419 * abs x) of the approximation. -/
def tN (x : ℝ) : ℝ := 1 / (1 + 0.2316419 * |x|)

/-- The value d = 0.3989423 * exp (-x * x / 2) of the approximation. -/
def dN (x : ℝ) : ℝ := 0.3989423 * Real.exp (-x * x / 2)

/-- The tail probability prob = d * t * poly t of the approximation. -/
def probN (x : ℝ) : ℝ := dN x * tN x * polyN (tN x)

/-- Cumulative-normal approximation N of the source:
x > 0 ? 1 - prob : prob. -/
def N (x : ℝ) : ℝ := if 0 < x then 1 - probN x else probN x

/-- Embedding of calculateBlackScholes: closed-form Black-Scholes price
and Greeks, exactly as written in the source. -/
def calculateBlackScholes (params : PricingParams) : PricingResult :=
  let S := params.spotPrice
  let K := params.strikePrice
  let T := params.timeToMaturity
  let r := params.riskFreeRate
  let sigma := params.volatility
  let d1 := (Real.log (S / K) + (r + 0.5 * sigma ^ 2) * T) / (sigma * Real.sqrt T)
  let d2 := d1 - sigma * Real.sqrt T
  let price := match params.optionType with
    | .call => S * N d1 - K * Real.exp (-r * T) * N d2
    | .put => K * Real.exp (-r * T) * N (-d2) - S * N (-d1)
  let delta := match params.optionType with
    | .call => N d1
    | .put => N d1 - 1
  let gamma := Real.exp (-d1 * d1 / 2) / (S * sigma * Real.sqrt (2 * Real.pi * T))
  let vega := S * Real.exp (-d1 * d1 / 2) * Real.sqrt T / Real.sqrt (2 * Real.pi) / 100
  let theta := -(S * Real.exp (-d1 * d1 / 2) * sigma) / (2 * Real.sqrt (2 * Real.pi * T)) / 365
  let rho := match params.optionType with
    | .call => K * T * Real.exp (-r * T) * N d2 / 100
    | .put => -K * T * Real.exp (-r * T) * N (-d2) / 100
  { price := price
    greeks := { delta := delta, gamma := gamma, theta := theta, vega := vega, rho := rho } }

/-- One backward-induction layer family of the binomial tree.  binLevel
disc p term k is the layer of option values k induction steps above the
terminal layer term; the source stores layer (steps - k) of its values
array, filled by
values i j = exp (-r dt) * (p * values (i+1) (j+1) + (1-p) * values (i+1) j). -/
def binLevel (disc p : ℝ) (term : ℕ → ℝ) : ℕ → ℕ → ℝ
  | 0 => term
  | k + 1 => fun j => disc * (p * binLevel disc p term k (j + 1) + (1 - p) * binLevel disc p term k j)

/-- Time step dt = T / steps of calculateBinomial. -/
def binDt (T : ℝ) (steps : ℕ) : ℝ := T / steps

/-- Up factor u = exp (sigma * sqrt dt) of calculateBinomial. -/
def binU (sigma dt : ℝ) : ℝ := Real.exp (sigma * Real.sqrt dt)

/-- Down factor d = 1 / u of calculateBinomial. -/
def binD (sigma dt : ℝ) : ℝ := 1 / binU sigma dt

/-- Risk-neutral probability p = (exp (r * dt) - d) / (u - d) of
calculateBinomial. -/
def binP (r sigma dt : ℝ) : ℝ :=
  (Real.exp (r * dt) - binD sigma dt) / (binU sigma dt - binD sigma dt)

/-- One-step discount factor exp (-r * dt) of calculateBinomial. -/
def binDisc (r dt : ℝ) : ℝ := Real.exp (-r * dt)

/-- Terminal layer of calculateBinomial: payoff at lattice node j of the
final step, max (0, S*u^j*d^(steps-j) - K) for a call and
max (0, K - S*u^j*d^(steps-j)) for a put. -/
def binTerm (S K u d : ℝ) (steps : ℕ) (otype : OptionType) (j : ℕ) : ℝ :=
  match otype with
  | .call => max 0 (S * u ^ j * d ^ (steps - j) - K)
  | .put => max 0 (K - S * u ^ j * d ^ (steps - j))

/-- The values array of calculateBinomial: binValues ... (steps - i) j is
the source's values i j. -/
def binValues (S K T r sigma : ℝ) (otype : OptionType) (steps : ℕ) : ℕ → ℕ → ℝ :=
  binLevel (binDisc r (binDt T steps)) (binP r sigma (binDt T steps))
    (binTerm S K (binU sigma (binDt T steps)) (binD sigma (binDt T steps)) steps otype)

/-- Embedding of calculateBinomial: Cox-Ross-Rubinstein binomial tree with
European backward induction, finite-difference delta and gamma from the
first two layers, and theta, vega, rho delegated to calculateBlackScholes,
exactly as written in the source (default steps = 100); the source's local
names dt, u, d, p, values are the top-level definitions binDt, binU, binD,
binP, binValues. -/
def calculateBinomial (params : PricingParams) (steps : ℕ := 100) : PricingResult :=
  let S := params.spotPrice
  let K := params.strikePrice
  let T := params.timeToMaturity
  let r := params.riskFreeRate
  let sigma := params.volatility
  let dt := binDt T steps
  let u := binU sigma dt
  let d := binD sigma dt
  let values := binValues S K T r sigma params.optionType steps
  let price := values steps 0
  let delta := (values (steps - 1) 1 - values (steps - 1) 0) / (S * u ^ 1 * d ^ 0 - S * u ^ 0 * d ^ 1)
  let gamma :=
    ((values (steps - 2) 2 - values (steps - 2) 1) / (S * u ^ 2 * d ^ 0 - S * u ^ 1 * d ^ 1) -
        (values (steps - 2) 1 - values (steps - 2) 0) / (S * u ^ 1 * d ^ 1 - S * u ^ 0 * d ^ 2)) /
      ((S * u ^ 2 * d ^ 0 - S * u ^ 0 * d ^ 2) / 2)
  let bsResult := calculateBlackScholes params
  { price := price
    greeks := { delta := delta, gamma := gamma, theta := bsResult.greeks.theta,
                vega := bsResult.greeks.vega, rho := bsResult.greeks.rho } }

/-! Spec-modelled part of the engine.  The Dockerfile and the API
reference of the repository document Python modules pricing.py and
hedging.py (OptionParams with an exercise style, validated pricing
strategies, a hedging simulator); their source is not in the repository,
so the definitions below are modelled from the specification. -/

/-- Exercise style of an option, per the documented OptionParams type. -/
inductive ExerciseStyle
  | european
  | american
deriving DecidableEq, Repr

/-- Modelled from the spec: the OptionParams value type of the missing
pricing.py, with the field names of the API reference. -/
structure OptionParams where
  spot : ℝ
  strike : ℝ
  volatility : ℝ
  rate : ℝ
  maturity : ℝ
  option_type : OptionType
  style : ExerciseStyle

/-- Modelled from the spec: the typed error kinds of the error-handling
design. -/
inductive PricingError
  | invalidParams
  | unsupportedStyle
  | degenerateHedge
  | arbitrageInconsistent
deriving DecidableEq, Repr

/-- Conversion from the engine's OptionParams to the parameter record of
the TypeScript pricers. -/
def OptionParams.toPricingParams (op : OptionParams) : PricingParams :=
  ⟨op.spot, op.strike, op.maturity, op.rate, op.volatility, op.option_type⟩

/-- Modelled from the spec: the Black-Scholes pricing strategy of the
missing pricing.py.  Parameters are validated first, at construction time
per the design notes (non-positive spot, strike or volatility and
non-positive maturity, including the degenerate T = 0 and sigma = 0
inputs, raise InvalidParams); an American-style request then fails with
UnsupportedStyle; otherwise the closed-form calculateBlackScholes price
is returned. -/
def blackScholesStrategy (params : OptionParams) : Except PricingError ℝ :=
  if params.spot ≤ 0 ∨ params.strike ≤ 0 ∨ params.volatility ≤ 0 ∨ params.maturity ≤ 0 then
    .error .invalidParams
  else
    match params.style with
    | .american => .error .unsupportedStyle
    | .european => .ok (calculateBlackScholes params.toPricingParams).price

/-- Immediate exercise payoff max (S - K, 0) for a call and
max (K - S, 0) for a put, as written in the spec. -/
def exercisePayoff (otype : OptionType) (K s : ℝ) : ℝ :=
  match otype with
  | .call => max (s - K) 0
  | .put => max (K - s) 0

/-- Modelled from the spec: backward-induction layers of the binomial
strategy of the missing pricing.py, supporting both exercise styles.
Layer 0 is the terminal payoff layer; layer k + 1 is one induction step
above it, at tree level steps - (k + 1): each node takes the discounted
expectation exp (-r*dt) * (p*V_up + (1-p)*V_down) and, for American
style, the maximum of it with the immediate exercise payoff at the
node's spot S*u^j*d^(i-j). -/
def binSpecLevel (disc p S u d K : ℝ) (otype : OptionType) (style : ExerciseStyle)
    (steps : ℕ) : ℕ → ℕ → ℝ
  | 0 => fun j => exercisePayoff otype K (S * u ^ j * d ^ (steps - j))
  | k + 1 => fun j =>
      let cont := disc * (p * binSpecLevel disc p S u d K otype style steps k (j + 1) +
        (1 - p) * binSpecLevel disc p S u d K otype style steps k j)
      match style with
      | .european => cont
      | .american => max cont (exercisePayoff otype K (S * u ^ j * d ^ (steps - (k + 1) - j)))

/-- Modelled from the spec: the binomial pricing strategy of the missing
pricing.py.  Parameters are validated (InvalidParams for non-positive
spot, strike or volatility or non-positive maturity, and for a
risk-neutral probability outside the interval from 0 to 1,
arbitrage-inconsistent parameters); the price is the root value of the
backward induction. -/
def binomialStrategy (params : OptionParams) (steps : ℕ := 100) : Except PricingError ℝ :=
  if params.spot ≤ 0 ∨ params.strike ≤ 0 ∨ params.volatility ≤ 0 ∨ params.maturity ≤ 0 then
    .error .invalidParams
  else if binP params.rate params.volatility (binDt params.maturity steps) < 0 ∨
      1 < binP params.rate params.volatility (binDt params.maturity steps) then
    .error .invalidParams
  else
    .ok (binSpecLevel (binDisc params.rate (binDt params.maturity steps))
      (binP params.rate params.volatility (binDt params.maturity steps))
      params.spot (binU params.volatility (binDt params.maturity steps))
      (binD params.volatility (binDt params.maturity steps)) params.strike
      params.option_type params.style steps steps 0)

/-- Node values of the spec-modelled binomial strategy, indexed by tree
level i (0 at the root, steps at the terminal layer) and node j. -/
def binSpecNode (params : OptionParams) (steps i j : ℕ) : ℝ :=
  binSpecLevel (binDisc params.rate (binDt params.maturity steps))
    (binP params.rate params.volatility (binDt params.maturity steps))
    params.spot (binU params.volatility (binDt params.maturity steps))
    (binD params.volatility (binDt params.maturity steps)) params.strike
    params.option_type params.style steps (steps - i) j

/-- Instrument type of a portfolio position. -/
inductive InstrumentType
  | option
  | stock
deriving DecidableEq, Repr

/-- Modelled from the spec: a portfolio position of the missing
hedging.py; stock positions carry no OptionParams. -/
structure Position where
  instrument_type : InstrumentType
  quantity : ℝ
  params : Option OptionParams

/-- Modelled from the spec: a portfolio is an ordered collection of
positions. -/
abbrev Portfolio := List Position

/-- Modelled from the spec: quantity-weighted Greeks of one position;
stock positions contribute delta = quantity and zero for the rest. -/
def positionGreeks (pos : Position) : Greeks :=
  match pos.instrument_type, pos.params with
  | .option, some op =>
      let g := (calculateBlackScholes op.toPricingParams).greeks
      ⟨pos.quantity * g.delta, pos.quantity * g.gamma, pos.quantity * g.theta,
        pos.quantity * g.vega, pos.quantity * g.rho⟩
  | .option, none => ⟨0, 0, 0, 0, 0⟩
  | .stock, _ => ⟨pos.quantity, 0, 0, 0, 0⟩

/-- Modelled from the spec: aggregated portfolio Greeks, the sum of the
quantity-weighted Greeks over the positions. -/
def calculatePortfolioGreeks (portfolio : Portfolio) : Greeks :=
  List.foldr (fun pos acc =>
    let g := positionGreeks pos
    ⟨g.delta + acc.delta, g.gamma + acc.gamma, g.theta + acc.theta,
      g.vega + acc.vega, g.rho + acc.rho⟩) ⟨0, 0, 0, 0, 0⟩ portfolio

/-- Modelled from the spec: deltaHedge of the missing hedging.py appends
a stock position with quantity equal to minus the portfolio delta. -/
def deltaHedge (portfolio : Portfolio) : Portfolio :=
  List.append portfolio [⟨.stock, -(calculatePortfolioGreeks portfolio).delta, none⟩]

/-- Modelled from the spec: gammaHedge of the missing hedging.py solves
for the hedge-option quantity cancelling the portfolio gamma (failing
with DegenerateHedge when the hedge option's gamma is zero), appends the
option position and then delta-hedges. -/
def gammaHedge (portfolio : Portfolio) (hedgeOption : OptionParams) :
    Except PricingError Portfolio :=
  let hg := (calculateBlackScholes hedgeOption.toPricingParams).greeks.gamma
  if hg = 0 then .error .degenerateHedge
  else .ok (deltaHedge (List.append portfolio
    [⟨.option, -(calculatePortfolioGreeks portfolio).gamma / hg, some hedgeOption⟩]))

/-- Modelled from the spec: a sampled market perturbation. -/
structure MarketScenario where
  spot_shock : ℝ
  vol_shock : ℝ
  time_step : ℝ

/-- Linear congruential pseudo-random step on 32-bit states, the
documented deterministic generator choice of the model. -/
def lcgNext (s : ℕ) : ℕ := (1664525 * s + 1013904223) % 4294967296

/-- The n-th state of the generator stream started from a seed. -/
def lcgStream (seed : ℕ) : ℕ → ℕ
  | 0 => lcgNext seed
  | n + 1 => lcgNext (lcgStream seed n)

/-- A generator state mapped into the unit interval. -/
def unitDraw (s : ℕ) : ℝ := (s % 4294967296 : ℕ) / 4294967296

/-- Modelled from the spec: the scenario draws of the missing hedging.py,
a function of the seed and the scenario count alone: spot shock uniform
in a 20 percent band, volatility shock uniform in a 50 percent band and
a fixed small forward time step. -/
def scenarioSeq (rngSeed nScenarios : ℕ) : List MarketScenario :=
  (List.range nScenarios).map fun i =>
    { spot_shock := -0.2 + 0.4 * unitDraw (lcgStream rngSeed (2 * i))
      vol_shock := -0.5 + 1.0 * unitDraw (lcgStream rngSeed (2 * i + 1))
      time_step := 0.01 }

/-- Modelled from the spec: value of one position under a shifted market
state; options are repriced at the shocked spot and volatility and the
reduced maturity, stock is marked to the shocked market spot. -/
def positionScenarioValue (baseSpot : ℝ) (sc : MarketScenario) (pos : Position) : ℝ :=
  match pos.instrument_type, pos.params with
  | .option, some op =>
      pos.quantity * (calculateBlackScholes
        ⟨op.spot * (1 + sc.spot_shock), op.strike, op.maturity - sc.time_step,
          op.rate, op.volatility * (1 + sc.vol_shock), op.option_type⟩).price
  | .option, none => 0
  | .stock, _ => pos.quantity * (baseSpot * (1 + sc.spot_shock))

/-- Portfolio value under one scenario: the sum of position values. -/
def portfolioScenarioValue (baseSpot : ℝ) (sc : MarketScenario) (portfolio : Portfolio) : ℝ :=
  List.foldr (fun pos acc => positionScenarioValue baseSpot sc pos + acc) 0 portfolio

/-- The unshocked base scenario. -/
def baseScenario : MarketScenario := ⟨0, 0, 0⟩

/-- PnL distribution of a portfolio over a scenario list: scenario value
minus base value for each draw. -/
def pnlList (baseSpot : ℝ) (portfolio : Portfolio) (scenarios : List MarketScenario) : List ℝ :=
  scenarios.map fun sc =>
    portfolioScenarioValue baseSpot sc portfolio -
      portfolioScenarioValue baseSpot baseScenario portfolio

/-- Mean of a list of reals. -/
def listMean (xs : List ℝ) : ℝ := xs.sum / xs.length

/-- Population variance of a list of reals. -/
def listVar (xs : List ℝ) : ℝ := (xs.map fun x => (x - listMean xs) ^ 2).sum / xs.length

/-- Standard deviation of a list of reals. -/
def listStd (xs : List ℝ) : ℝ := Real.sqrt (listVar xs)

/-- Most negative PnL of a list (and at most zero). -/
def listMaxLoss (xs : List ℝ) : ℝ := List.foldr min 0 xs

/-- Modelled from the spec: the HedgeResult statistics record. -/
structure HedgeResult where
  variance_reduction : ℝ
  pnl_mean : ℝ
  pnl_std : ℝ
  max_loss : ℝ
  sharpe : ℝ

/-- Hedge strategy selector of simulateHedgingEffectiveness. -/
inductive HedgeStrategy
  | none
  | delta
  | gamma
deriving DecidableEq, Repr

/-- Modelled from the spec: application of the selected hedge strategy
before simulation. -/
def applyStrategy (strategy : HedgeStrategy) (hedgeOption : Option OptionParams)
    (portfolio : Portfolio) : Portfolio :=
  match strategy with
  | .none => portfolio
  | .delta => deltaHedge portfolio
  | .gamma =>
      match hedgeOption with
      | some op =>
          match gammaHedge portfolio op with
          | .ok hedged => hedged
          | .error _ => portfolio
      | none => portfolio

/-- Modelled from the spec: simulateHedgingEffectiveness of the missing
hedging.py.  The scenario draws are a function of (rngSeed, nScenarios)
alone; the hedged portfolio and the unhedged portfolio are revalued over
the identical draws, and the statistics (mean, standard deviation, max
loss, Sharpe-like ratio with a zero sentinel for zero deviation, and
variance reduction versus the unhedged run, as a percentage) are
reported. -/
def simulateHedgingEffectiveness (portfolio : Portfolio) (strategy : HedgeStrategy)
    (hedgeOption : Option OptionParams) (baseSpot : ℝ) (nScenarios rngSeed : ℕ) :
    HedgeResult :=
  let scenarios := scenarioSeq rngSeed nScenarios
  let hedged := applyStrategy strategy hedgeOption portfolio
  let pnls := pnlList baseSpot hedged scenarios
  let pnlsUnhedged := pnlList baseSpot portfolio scenarios
  let mean := listMean pnls
  let std := listStd pnls
  { variance_reduction := (1 - listVar pnls / listVar pnlsUnhedged) * 100
    pnl_mean := mean
    pnl_std := std
    max_loss := listMaxLoss pnls
    sharpe := if std = 0 then 0 else mean / std }

/-! Lemmas about the cumulative-normal approximation. -/

lemma tN_pos (x : ℝ) : 0 < tN x := by
  unfold tN
  have h : (0 : ℝ) ≤ 0.2316419 * |x| := by positivity
  positivity

lemma tN_le_one (x : ℝ) : tN x ≤ 1 := by
  unfold tN
  have h : (0 : ℝ) ≤ 0.2316419 * |x| := by positivity
  rw [div_le_one (by linarith)]
  linarith

lemma dN_pos (x : ℝ) : 0 < dN x := by
  unfold dN
  positivity

lemma tN_even (x : ℝ) : tN (-x) = tN x := by
  unfold tN
  rw [abs_neg]

lemma dN_even (x : ℝ) : dN (-x) = dN x := by
  unfold dN
  have h : -(-x) * -x = -x * x := by ring
  rw [h]

lemma probN_even (x : ℝ) : probN (-x) = probN x := by
  unfold probN
  rw [tN_even, dN_even]

lemma polyN_nonneg (t : ℝ) : 0 ≤ polyN t := by
  unfold polyN
  nlinarith [sq_nonneg (t * t - 0.6845 * t + 0.1), sq_nonneg (t - 0.0978), sq_nonneg t,
    sq_nonneg (t - 1), sq_nonneg (t * t - t)]

lemma gN_deriv_nonneg (t : ℝ) :
    0 ≤ 0.3193815 + 2 * (-0.3565638) * t + 3 * 1.781478 * t ^ 2 +
      4 * (-1.821256) * t ^ 3 + 5 * 1.330274 * t ^ 4 := by
  nlinarith [sq_nonneg (t * t - 0.547634 * t + 0.15), sq_nonneg (t + 0.140145), sq_nonneg t,
    sq_nonneg (t - 1), sq_nonneg (t * t - t)]

lemma gN_mono : Monotone (fun t : ℝ => t * polyN t) := by
  have hrw : (fun t : ℝ => t * polyN t) =
      fun t : ℝ => 0.3193815 * t + (-0.3565638) * t ^ 2 + 1.781478 * t ^ 3 +
        (-1.821256) * t ^ 4 + 1.330274 * t ^ 5 := by
    funext t
    unfold polyN
    ring
  rw [hrw]
  have hdiff : Differentiable ℝ (fun t : ℝ => 0.3193815 * t + (-0.3565638) * t ^ 2 +
      1.781478 * t ^ 3 + (-1.821256) * t ^ 4 + 1.330274 * t ^ 5) := by
    fun_prop
  apply monotone_of_deriv_nonneg hdiff
  intro t
  have hd : HasDerivAt (fun t : ℝ => 0.3193815 * t + (-0.3565638) * t ^ 2 +
      1.781478 * t ^ 3 + (-1.821256) * t ^ 4 + 1.330274 * t ^ 5)
      (0.3193815 + 2 * (-0.3565638) * t + 3 * 1.781478 * t ^ 2 +
        4 * (-1.821256) * t ^ 3 + 5 * 1.330274 * t ^ 4) t := by
    have h1 := (hasDerivAt_pow 1 t).const_mul (0.3193815 : ℝ)
    have h2 := (hasDerivAt_pow 2 t).const_mul (-0.3565638 : ℝ)
    have h3 := (hasDerivAt_pow 3 t).const_mul (1.781478 : ℝ)
    have h4 := (hasDerivAt_pow 4 t).const_mul (-1.821256 : ℝ)
    have h5 := (hasDerivAt_pow 5 t).const_mul (1.330274 : ℝ)
    have h := (((h1.add h2).add h3).add h4).add h5
    convert h using 1
    · funext s
      ring
    · push_cast
      ring
  rw [hd.deriv]
  exact gN_deriv_nonneg t

lemma probN_nonneg (x : ℝ) : 0 ≤ probN x := by
  unfold probN
  have h1 := dN_pos x
  have h2 := tN_pos x
  have h3 := polyN_nonneg (tN x)
  positivity

lemma probN_anti {x y : ℝ} (hx : 0 ≤ x) (hxy : x ≤ y) : probN y ≤ probN x := by
  have hdn : dN y ≤ dN x := by
    unfold dN
    have : -y * y / 2 ≤ -x * x / 2 := by nlinarith
    have := Real.exp_le_exp.mpr this
    nlinarith
  have htn : tN y ≤ tN x := by
    unfold tN
    have h1 : (0 : ℝ) < 1 + 0.2316419 * |x| := by positivity
    have h2 : 1 + 0.2316419 * |x| ≤ 1 + 0.2316419 * |y| := by
      have : |x| ≤ |y| := by
        rw [abs_of_nonneg hx, abs_of_nonneg (le_trans hx hxy)]
        exact hxy
      linarith
    exact one_div_le_one_div_of_le h1 h2
  have hg : tN y * polyN (tN y) ≤ tN x * polyN (tN x) := gN_mono htn
  have hgy : 0 ≤ tN y * polyN (tN y) :=
    mul_nonneg (le_of_lt (tN_pos y)) (polyN_nonneg (tN y))
  have hrw : ∀ z : ℝ, probN z = dN z * (tN z * polyN (tN z)) := by
    intro z
    unfold probN
    ring
  rw [hrw, hrw]
  exact mul_le_mul hdn hg hgy (le_of_lt (dN_pos x))

lemma probN_le_probN_zero (x : ℝ) : probN x ≤ probN 0 := by
  rcases le_or_lt 0 x with h | h
  · exact probN_anti le_rfl h
  · rw [← probN_even]
    exact probN_anti le_rfl (by linarith)

lemma probN_zero_val : probN 0 = 0.49999985009951 := by
  unfold probN dN tN polyN
  rw [abs_zero]
  norm_num [Real.exp_zero]

lemma probN_le_half (x : ℝ) : probN x ≤ 1 / 2 := by
  have h := probN_le_probN_zero x
  rw [probN_zero_val] at h
  linarith

lemma N_nonneg (x : ℝ) : 0 ≤ N x := by
  unfold N
  split_ifs
  · have := probN_le_half x
    linarith
  · exact probN_nonneg x

lemma N_le_one (x : ℝ) : N x ≤ 1 := by
  unfold N
  split_ifs
  · have := probN_nonneg x
    linarith
  · have := probN_le_half x
    linarith

lemma N_monotone : Monotone N := by
  intro x y hxy
  unfold N
  split_ifs with hx hy hy
  · have h : probN y ≤ probN x := probN_anti (le_of_lt hx) hxy
    linarith
  · linarith
  · have h1 := probN_le_half x
    have h2 := probN_le_half y
    linarith
  · push_neg at hx hy
    rw [← probN_even x, ← probN_even y]
    exact probN_anti (by linarith) (by linarith)

lemma N_add_N_neg {x : ℝ} (hx : x ≠ 0) : N x + N (-x) = 1 := by
  unfold N
  rcases lt_trichotomy 0 x with h | h | h
  · rw [if_pos h, if_neg (by linarith), probN_even]
    ring
  · exact absurd h.symm hx
  · rw [if_neg (by linarith), if_pos (by linarith), probN_even]
    ring

lemma N_zero_val : N 0 = 0.49999985009951 := by
  unfold N
  rw [if_neg (lt_irrefl 0)]
  exact probN_zero_val

/-! Lemmas about the binomial tree. -/

lemma max_zero_diff_call {a b K : ℝ} (hab : a ≤ b) :
    0 ≤ max 0 (b - K) - max 0 (a - K) ∧ max 0 (b - K) - max 0 (a - K) ≤ b - a := by
  constructor
  · have h := max_le_max (le_refl (0 : ℝ)) (by linarith : a - K ≤ b - K)
    linarith
  · rcases le_total (a - K) 0 with ha | ha <;> rcases le_total (b - K) 0 with hb | hb
    · rw [max_eq_left ha, max_eq_left hb]
      linarith
    · rw [max_eq_left ha, max_eq_right hb]
      linarith
    · rw [max_eq_right ha, max_eq_left hb]
      linarith
    · rw [max_eq_right ha, max_eq_right hb]
      linarith

lemma max_zero_diff_put {a b K : ℝ} (hab : a ≤ b) :
    -(b - a) ≤ max 0 (K - b) - max 0 (K - a) ∧ max 0 (K - b) - max 0 (K - a) ≤ 0 := by
  constructor
  · rcases le_total (K - a) 0 with ha | ha <;> rcases le_total (K - b) 0 with hb | hb
    · rw [max_eq_left ha, max_eq_left hb]
      linarith
    · rw [max_eq_left ha, max_eq_right hb]
      linarith
    · rw [max_eq_right ha, max_eq_left hb]
      linarith
    · rw [max_eq_right ha, max_eq_right hb]
      linarith
  · have h := max_le_max (le_refl (0 : ℝ)) (by linarith : K - b ≤ K - a)
    linarith

lemma cross_call {u d a b c K : ℝ} (hu : 0 ≤ u) (hd : 0 ≤ d)
    (hab : a ≤ b) (hbc : b ≤ c) (hcross : u * (b - a) = d * (c - b)) :
    u * (max 0 (b - K) - max 0 (a - K)) ≤ d * (max 0 (c - K) - max 0 (b - K)) := by
  simp only [max_def]
  split_ifs <;> nlinarith [hcross, mul_nonneg hu (sub_nonneg.mpr hab),
    mul_nonneg hd (sub_nonneg.mpr hbc)]

lemma cross_put {u d a b c K : ℝ} (hu : 0 ≤ u) (hd : 0 ≤ d)
    (hab : a ≤ b) (hbc : b ≤ c) (hcross : u * (b - a) = d * (c - b)) :
    u * (max 0 (K - b) - max 0 (K - a)) ≤ d * (max 0 (K - c) - max 0 (K - b)) := by
  simp only [max_def]
  split_ifs <;> nlinarith [hcross, mul_nonneg hu (sub_nonneg.mpr hab),
    mul_nonneg hd (sub_nonneg.mpr hbc)]

lemma binLevel_sandwich (disc p lo hi : ℝ) (term : ℕ → ℝ) (gap : ℕ → ℕ → ℝ) (steps : ℕ)
    (hdisc : 0 ≤ disc) (hp0 : 0 ≤ p) (hp1 : p ≤ 1)
    (hgap : ∀ k j, k + j + 2 ≤ steps →
      disc * (p * gap k (j + 1) + (1 - p) * gap k j) = gap (k + 1) j)
    (hterm : ∀ j, j + 1 ≤ steps →
      lo * gap 0 j ≤ term (j + 1) - term j ∧ term (j + 1) - term j ≤ hi * gap 0 j) :
    ∀ k j, k + j + 1 ≤ steps →
      lo * gap k j ≤ binLevel disc p term k (j + 1) - binLevel disc p term k j ∧
        binLevel disc p term k (j + 1) - binLevel disc p term k j ≤ hi * gap k j := by
  intro k
  induction k with
  | zero => exact fun j hj => hterm j (by omega)
  | succ k ih =>
      intro j hj
      have h0 := ih j (by omega)
      have h1 := ih (j + 1) (by omega)
      have hg := hgap k j (by omega)
      have hq : 0 ≤ 1 - p := by linarith
      simp only [binLevel]
      have e1lo : 0 ≤ disc * p *
          (binLevel disc p term k (j + 2) - binLevel disc p term k (j + 1) -
            lo * gap k (j + 1)) :=
        mul_nonneg (mul_nonneg hdisc hp0) (by linarith [h1.1])
      have e0lo : 0 ≤ disc * (1 - p) *
          (binLevel disc p term k (j + 1) - binLevel disc p term k j - lo * gap k j) :=
        mul_nonneg (mul_nonneg hdisc hq) (by linarith [h0.1])
      have e1hi : 0 ≤ disc * p *
          (hi * gap k (j + 1) -
            (binLevel disc p term k (j + 2) - binLevel disc p term k (j + 1))) :=
        mul_nonneg (mul_nonneg hdisc hp0) (by linarith [h1.2])
      have e0hi : 0 ≤ disc * (1 - p) *
          (hi * gap k j - (binLevel disc p term k (j + 1) - binLevel disc p term k j)) :=
        mul_nonneg (mul_nonneg hdisc hq) (by linarith [h0.2])
      have hglo : lo * gap (k + 1) j =
          lo * (disc * (p * gap k (j + 1) + (1 - p) * gap k j)) := by rw [hg]
      have hghi : hi * gap (k + 1) j =
          hi * (disc * (p * gap k (j + 1) + (1 - p) * gap k j)) := by rw [hg]
      constructor
      · nlinarith [e1lo, e0lo, hglo]
      · nlinarith [e1hi, e0hi, hghi]

lemma binLevel_cross (disc p u d : ℝ) (term : ℕ → ℝ) (steps : ℕ)
    (hdisc : 0 ≤ disc) (hp0 : 0 ≤ p) (hp1 : p ≤ 1)
    (hconv : ∀ j, j + 2 ≤ steps →
      u * (term (j + 1) - term j) ≤ d * (term (j + 2) - term (j + 1))) :
    ∀ k j, k + j + 2 ≤ steps →
      u * (binLevel disc p term k (j + 1) - binLevel disc p term k j) ≤
        d * (binLevel disc p term k (j + 2) - binLevel disc p term k (j + 1)) := by
  intro k
  induction k with
  | zero => exact fun j hj => hconv j (by omega)
  | succ k ih =>
      intro j hj
      have h0 := ih j (by omega)
      have h1 := ih (j + 1) (by omega)
      have hq : 0 ≤ 1 - p := by linarith
      simp only [binLevel]
      have e1 : 0 ≤ disc * p *
          (d * (binLevel disc p term k (j + 3) - binLevel disc p term k (j + 2)) -
            u * (binLevel disc p term k (j + 2) - binLevel disc p term k (j + 1))) :=
        mul_nonneg (mul_nonneg hdisc hp0) (by linarith [h1])
      have e0 : 0 ≤ disc * (1 - p) *
          (d * (binLevel disc p term k (j + 2) - binLevel disc p term k (j + 1)) -
            u * (binLevel disc p term k (j + 1) - binLevel disc p term k j)) :=
        mul_nonneg (mul_nonneg hdisc hq) (by linarith [h0])
      nlinarith [e1, e0]

lemma binU_pos (sigma dt : ℝ) : 0 < binU sigma dt := Real.exp_pos _

lemma binD_pos (sigma dt : ℝ) : 0 < binD sigma dt := by
  unfold binD
  have := binU_pos sigma dt
  positivity

lemma one_lt_binU (sigma dt : ℝ) (hsig : 0 < sigma) (hdt : 0 < dt) : 1 < binU sigma dt := by
  unfold binU
  have hx : 0 < sigma * Real.sqrt dt := mul_pos hsig (Real.sqrt_pos.mpr hdt)
  calc (1 : ℝ) = Real.exp 0 := Real.exp_zero.symm
    _ < Real.exp (sigma * Real.sqrt dt) := Real.exp_lt_exp.mpr hx

lemma binD_lt_binU (sigma dt : ℝ) (hsig : 0 < sigma) (hdt : 0 < dt) :
    binD sigma dt < binU sigma dt := by
  have hu := one_lt_binU sigma dt hsig hdt
  have hu0 := binU_pos sigma dt
  have hd1 : binD sigma dt < 1 := by
    unfold binD
    rw [div_lt_one hu0]
    exact hu
  linarith

lemma binMart (r sigma dt : ℝ) (hne : binD sigma dt < binU sigma dt) :
    binDisc r dt *
      (binP r sigma dt * binU sigma dt + (1 - binP r sigma dt) * binD sigma dt) = 1 := by
  have hud : binU sigma dt - binD sigma dt ≠ 0 := by
    intro h
    have : binU sigma dt = binD sigma dt := by linarith
    linarith
  have hp : binP r sigma dt * (binU sigma dt - binD sigma dt) =
      Real.exp (r * dt) - binD sigma dt := by
    unfold binP
    field_simp
  have hE : Real.exp (-r * dt) * Real.exp (r * dt) = 1 := by
    rw [← Real.exp_add]
    norm_num
  unfold binDisc
  linear_combination Real.exp (-r * dt) * hp + hE

lemma spot_step (S u d : ℝ) (steps j : ℕ) (hj : j + 1 ≤ steps) :
    S * u ^ (j + 1) * d ^ (steps - (j + 1)) - S * u ^ j * d ^ (steps - j) =
      S * u ^ j * d ^ (steps - j - 1) * (u - d) := by
  have e1 : steps - j = steps - j - 1 + 1 := by omega
  have e2 : steps - (j + 1) = steps - j - 1 := by omega
  rw [e2]
  generalize steps - j - 1 = m at e1 ⊢
  rw [e1, pow_succ, pow_succ]
  ring

lemma binGap_recurrence {disc p S u d : ℝ} (steps : ℕ)
    (hmart : disc * (p * u + (1 - p) * d) = 1) :
    ∀ k j : ℕ, k + j + 2 ≤ steps →
      disc * (p * (S * u ^ (j + 1) * d ^ (steps - k - (j + 1) - 1) * (u - d)) +
        (1 - p) * (S * u ^ j * d ^ (steps - k - j - 1) * (u - d))) =
      S * u ^ j * d ^ (steps - (k + 1) - j - 1) * (u - d) := by
  intro k j hkj
  have e1 : steps - k - (j + 1) - 1 = steps - k - j - 2 := by omega
  have e2 : steps - k - j - 1 = steps - k - j - 2 + 1 := by omega
  have e3 : steps - (k + 1) - j - 1 = steps - k - j - 2 := by omega
  rw [e1, e2, e3, pow_succ d (steps - k - j - 2), pow_succ u j]
  linear_combination (S * u ^ j * d ^ (steps - k - j - 2) * (u - d)) * hmart

lemma binGap_nonneg {S u d : ℝ} (hS : 0 < S) (hu0 : 0 < u) (hd0 : 0 < d) (hdu : d < u)
    (m j : ℕ) : 0 ≤ S * u ^ j * d ^ m * (u - d) := by
  have h := mul_pos (mul_pos (mul_pos hS (pow_pos hu0 j)) (pow_pos hd0 m)) (sub_pos.mpr hdu)
  linarith

lemma binTerm_sandwich_call {S K u d : ℝ} (steps : ℕ)
    (hS : 0 < S) (hu0 : 0 < u) (hd0 : 0 < d) (hdu : d < u) :
    ∀ j : ℕ, j + 1 ≤ steps →
      0 * (S * u ^ j * d ^ (steps - 0 - j - 1) * (u - d)) ≤
          binTerm S K u d steps .call (j + 1) - binTerm S K u d steps .call j ∧
        binTerm S K u d steps .call (j + 1) - binTerm S K u d steps .call j ≤
          1 * (S * u ^ j * d ^ (steps - 0 - j - 1) * (u - d)) := by
  intro j hj
  have e0 : steps - 0 - j - 1 = steps - j - 1 := by omega
  rw [e0]
  have hstep := spot_step S u d steps j hj
  have hgap0 := binGap_nonneg hS hu0 hd0 hdu (steps - j - 1) j
  have hab : S * u ^ j * d ^ (steps - j) ≤ S * u ^ (j + 1) * d ^ (steps - (j + 1)) := by
    nlinarith [hstep, hgap0]
  have h := max_zero_diff_call (K := K) hab
  simp only [binTerm]
  constructor
  · rw [zero_mul]
    exact h.1
  · rw [one_mul, ← hstep]
    exact h.2

lemma binTerm_sandwich_put {S K u d : ℝ} (steps : ℕ)
    (hS : 0 < S) (hu0 : 0 < u) (hd0 : 0 < d) (hdu : d < u) :
    ∀ j : ℕ, j + 1 ≤ steps →
      (-1) * (S * u ^ j * d ^ (steps - 0 - j - 1) * (u - d)) ≤
          binTerm S K u d steps .put (j + 1) - binTerm S K u d steps .put j ∧
        binTerm S K u d steps .put (j + 1) - binTerm S K u d steps .put j ≤
          0 * (S * u ^ j * d ^ (steps - 0 - j - 1) * (u - d)) := by
  intro j hj
  have e0 : steps - 0 - j - 1 = steps - j - 1 := by omega
  rw [e0]
  have hstep := spot_step S u d steps j hj
  have hgap0 := binGap_nonneg hS hu0 hd0 hdu (steps - j - 1) j
  have hab : S * u ^ j * d ^ (steps - j) ≤ S * u ^ (j + 1) * d ^ (steps - (j + 1)) := by
    nlinarith [hstep, hgap0]
  have h := max_zero_diff_put (K := K) hab
  simp only [binTerm]
  constructor
  · have : -(S * u ^ (j + 1) * d ^ (steps - (j + 1)) - S * u ^ j * d ^ (steps - j)) =
        (-1) * (S * u ^ j * d ^ (steps - j - 1) * (u - d)) := by
      rw [hstep]
      ring
    rw [← this]
    exact h.1
  · rw [zero_mul]
    exact h.2

lemma binDelta_call_bounds (disc p S K u d : ℝ) (steps : ℕ)
    (hS : 0 < S) (hu0 : 0 < u) (hd0 : 0 < d) (hdu : d < u)
    (hdisc : 0 ≤ disc) (hp0 : 0 ≤ p) (hp1 : p ≤ 1)
    (hmart : disc * (p * u + (1 - p) * d) = 1) (hsteps : 1 ≤ steps) :
    0 ≤ binLevel disc p (binTerm S K u d steps .call) (steps - 1) 1 -
        binLevel disc p (binTerm S K u d steps .call) (steps - 1) 0 ∧
      binLevel disc p (binTerm S K u d steps .call) (steps - 1) 1 -
        binLevel disc p (binTerm S K u d steps .call) (steps - 1) 0 ≤ S * (u - d) := by
  have hsw := binLevel_sandwich disc p 0 1 (binTerm S K u d steps .call)
    (fun k j => S * u ^ j * d ^ (steps - k - j - 1) * (u - d)) steps hdisc hp0 hp1
    (binGap_recurrence steps hmart) (binTerm_sandwich_call steps hS hu0 hd0 hdu)
  have h := hsw (steps - 1) 0 (by omega)
  have e4 : steps - (steps - 1) - 0 - 1 = 0 := by omega
  simp only [e4, pow_zero, mul_one, one_mul, zero_mul, zero_add, neg_one_mul] at h
  exact h

lemma binDelta_put_bounds (disc p S K u d : ℝ) (steps : ℕ)
    (hS : 0 < S) (hu0 : 0 < u) (hd0 : 0 < d) (hdu : d < u)
    (hdisc : 0 ≤ disc) (hp0 : 0 ≤ p) (hp1 : p ≤ 1)
    (hmart : disc * (p * u + (1 - p) * d) = 1) (hsteps : 1 ≤ steps) :
    -(S * (u - d)) ≤ binLevel disc p (binTerm S K u d steps .put) (steps - 1) 1 -
        binLevel disc p (binTerm S K u d steps .put) (steps - 1) 0 ∧
      binLevel disc p (binTerm S K u d steps .put) (steps - 1) 1 -
        binLevel disc p (binTerm S K u d steps .put) (steps - 1) 0 ≤ 0 := by
  have hsw := binLevel_sandwich disc p (-1) 0 (binTerm S K u d steps .put)
    (fun k j => S * u ^ j * d ^ (steps - k - j - 1) * (u - d)) steps hdisc hp0 hp1
    (binGap_recurrence steps hmart) (binTerm_sandwich_put steps hS hu0 hd0 hdu)
  have h := hsw (steps - 1) 0 (by omega)
  have e4 : steps - (steps - 1) - 0 - 1 = 0 := by omega
  simp only [e4, pow_zero, mul_one, one_mul, zero_mul, zero_add, neg_one_mul] at h
  exact h

lemma binTerm_conv {S K u d : ℝ} (steps : ℕ) (otype : OptionType)
    (hS : 0 < S) (hu0 : 0 < u) (hd0 : 0 < d) (hdu : d < u) :
    ∀ j : ℕ, j + 2 ≤ steps →
      u * (binTerm S K u d steps otype (j + 1) - binTerm S K u d steps otype j) ≤
        d * (binTerm S K u d steps otype (j + 2) - binTerm S K u d steps otype (j + 1)) := by
  intro j hj
  have hstep1 := spot_step S u d steps j (by omega)
  have hstep2 := spot_step S u d steps (j + 1) (by omega)
  have hgap1 := binGap_nonneg hS hu0 hd0 hdu (steps - j - 1) j
  have hgap2 := binGap_nonneg hS hu0 hd0 hdu (steps - (j + 1) - 1) (j + 1)
  have hab : S * u ^ j * d ^ (steps - j) ≤ S * u ^ (j + 1) * d ^ (steps - (j + 1)) := by
    nlinarith [hstep1, hgap1]
  have hbc : S * u ^ (j + 1) * d ^ (steps - (j + 1)) ≤ S * u ^ (j + 2) * d ^ (steps - (j + 2)) := by
    nlinarith [hstep2, hgap2]
  have e : steps - j - 1 = (steps - (j + 1) - 1) + 1 := by omega
  have hcross : u * (S * u ^ (j + 1) * d ^ (steps - (j + 1)) - S * u ^ j * d ^ (steps - j)) =
      d * (S * u ^ (j + 2) * d ^ (steps - (j + 2)) - S * u ^ (j + 1) * d ^ (steps - (j + 1))) := by
    rw [hstep1, hstep2, e, pow_succ d (steps - (j + 1) - 1), pow_succ u j]
    ring
  cases otype
  · simp only [binTerm]
    exact cross_call (le_of_lt hu0) (le_of_lt hd0) hab hbc hcross
  · simp only [binTerm]
    exact cross_put (le_of_lt hu0) (le_of_lt hd0) hab hbc hcross

lemma binGamma_cross (disc p S K u d : ℝ) (steps : ℕ) (otype : OptionType)
    (hS : 0 < S) (hu0 : 0 < u) (hd0 : 0 < d) (hdu : d < u)
    (hdisc : 0 ≤ disc) (hp0 : 0 ≤ p) (hp1 : p ≤ 1) (hsteps : 2 ≤ steps) :
    u * (binLevel disc p (binTerm S K u d steps otype) (steps - 2) 1 -
        binLevel disc p (binTerm S K u d steps otype) (steps - 2) 0) ≤
      d * (binLevel disc p (binTerm S K u d steps otype) (steps - 2) 2 -
        binLevel disc p (binTerm S K u d steps otype) (steps - 2) 1) :=
  binLevel_cross disc p u d (binTerm S K u d steps otype) steps hdisc hp0 hp1
    (binTerm_conv steps otype hS hu0 hd0 hdu) (steps - 2) 0 (by omega)

/-- Claim C1: for every input with positive spot, strike, volatility and
maturity, calculateBlackScholes returns price S*N(d1) - K*exp(-r*T)*N(d2)
for a call and K*exp(-r*T)*N(-d2) - S*N(-d1) for a put, where
d1 = (ln(S/K) + (r + sigma^2/2)*T) / (sigma*sqrt T), d2 = d1 - sigma*sqrt T,
and N is the implementation's cumulative-normal approximation. -/
theorem C1_blackScholes_price_formula (S K T r sigma : ℝ) (otype : OptionType)
    (hS : 0 < S) (hK : 0 < K) (hsig : 0 < sigma) (hT : 0 < T) :
    (calculateBlackScholes ⟨S, K, T, r, sigma, otype⟩).price =
      match otype with
      | .call =>
          S * N ((Real.log (S / K) + (r + sigma ^ 2 / 2) * T) / (sigma * Real.sqrt T)) -
            K * Real.exp (-r * T) *
              N ((Real.log (S / K) + (r + sigma ^ 2 / 2) * T) / (sigma * Real.sqrt T) -
                sigma * Real.sqrt T)
      | .put =>
          K * Real.exp (-r * T) *
              N (-((Real.log (S / K) + (r + sigma ^ 2 / 2) * T) / (sigma * Real.sqrt T) -
                sigma * Real.sqrt T)) -
            S * N (-((Real.log (S / K) + (r + sigma ^ 2 / 2) * T) / (sigma * Real.sqrt T))) := by
  have hd1 : (Real.log (S / K) + (r + sigma ^ 2 / 2) * T) / (sigma * Real.sqrt T) =
      (Real.log (S / K) + (r + 0.5 * sigma ^ 2) * T) / (sigma * Real.sqrt T) := by
    ring
  cases otype <;> simp only [calculateBlackScholes, hd1]

/-- Witness for C1 at a concrete input. -/
theorem C1_blackScholes_price_formula_witness :
    (calculateBlackScholes ⟨100, 100, 1, 0.05, 0.2, OptionType.call⟩).price =
      100 * N ((Real.log (100 / 100) + (0.05 + 0.2 ^ 2 / 2) * 1) / (0.2 * Real.sqrt 1)) -
        100 * Real.exp (-0.05 * 1) *
          N ((Real.log (100 / 100) + (0.05 + 0.2 ^ 2 / 2) * 1) / (0.2 * Real.sqrt 1) -
            0.2 * Real.sqrt 1) :=
  C1_blackScholes_price_formula 100 100 1 0.05 0.2 OptionType.call
    (by norm_num) (by norm_num) (by norm_num) (by norm_num)

/-- Claim C7: the cumulative-normal approximation N maps every real into
the interval from 0 to 1, is monotone non-decreasing, has N 0 equal to 0.5
within the stated 0.1 percent absolute accuracy, and satisfies the
symmetry N (-x) = 1 - N x within the same tolerance.  Range and
monotonicity in fact hold exactly. -/
theorem C7_normal_cdf_contract :
    (∀ x : ℝ, 0 ≤ N x ∧ N x ≤ 1) ∧ Monotone N ∧
      |N 0 - 1 / 2| ≤ 1 / 1000 ∧ ∀ x : ℝ, |N (-x) - (1 - N x)| ≤ 1 / 1000 := by
  refine ⟨fun x => ⟨N_nonneg x, N_le_one x⟩, N_monotone, ?_, ?_⟩
  · rw [N_zero_val, abs_le]
    constructor <;> norm_num
  · intro x
    rcases eq_or_ne x 0 with h | h
    · subst h
      rw [neg_zero, N_zero_val, abs_le]
      constructor <;> norm_num
    · have hsum := N_add_N_neg h
      have : N (-x) - (1 - N x) = 0 := by linarith
      rw [this]
      norm_num

/-- Claim C6: put-call parity for calculateBlackScholes.  For positive
spot, strike, volatility and maturity, the call price minus the put price
equals S - K*exp(-r*T) up to one part in a million of the position scale
S + K*exp(-r*T); off the measure-zero set d1 = 0 or d2 = 0 the identity
is exact, and on it the defect is bounded by |2*N 0 - 1| < 3e-7. -/
theorem C6_put_call_parity (S K T r sigma : ℝ)
    (hS : 0 < S) (hK : 0 < K) (hsig : 0 < sigma) (hT : 0 < T) :
    |(calculateBlackScholes ⟨S, K, T, r, sigma, OptionType.call⟩).price -
        (calculateBlackScholes ⟨S, K, T, r, sigma, OptionType.put⟩).price -
        (S - K * Real.exp (-r * T))| ≤ (S + K * Real.exp (-r * T)) / 1000000 := by
  have hE : 0 < Real.exp (-r * T) := Real.exp_pos _
  have hsq : 0 < Real.sqrt T := Real.sqrt_pos.mpr hT
  have hst : 0 < sigma * Real.sqrt T := mul_pos hsig hsq
  set d1v := (Real.log (S / K) + (r + 0.5 * sigma ^ 2) * T) / (sigma * Real.sqrt T) with hd1v
  have hC : (calculateBlackScholes ⟨S, K, T, r, sigma, OptionType.call⟩).price =
      S * N d1v - K * Real.exp (-r * T) * N (d1v - sigma * Real.sqrt T) := by
    simp only [calculateBlackScholes]
  have hP : (calculateBlackScholes ⟨S, K, T, r, sigma, OptionType.put⟩).price =
      K * Real.exp (-r * T) * N (-(d1v - sigma * Real.sqrt T)) - S * N (-d1v) := by
    simp only [calculateBlackScholes]
  rw [hC, hP]
  have key : S * N d1v - K * Real.exp (-r * T) * N (d1v - sigma * Real.sqrt T) -
      (K * Real.exp (-r * T) * N (-(d1v - sigma * Real.sqrt T)) - S * N (-d1v)) -
      (S - K * Real.exp (-r * T)) =
      S * (N d1v + N (-d1v) - 1) -
        K * Real.exp (-r * T) *
          (N (d1v - sigma * Real.sqrt T) + N (-(d1v - sigma * Real.sqrt T)) - 1) := by
    ring
  rw [key]
  rcases eq_or_ne d1v 0 with h1 | h1
  · have h2 : d1v - sigma * Real.sqrt T ≠ 0 := by
      rw [h1]
      intro hcon
      have : sigma * Real.sqrt T = 0 := by linarith
      linarith
    have hB : N (d1v - sigma * Real.sqrt T) + N (-(d1v - sigma * Real.sqrt T)) = 1 :=
      N_add_N_neg h2
    have hA : N d1v + N (-d1v) - 1 = -0.00000029980098 := by
      rw [h1, neg_zero, N_zero_val]
      norm_num
    rw [hA, hB]
    rw [abs_le]
    constructor <;> nlinarith
  · rcases eq_or_ne (d1v - sigma * Real.sqrt T) 0 with h2 | h2
    · have hA : N d1v + N (-d1v) = 1 := N_add_N_neg h1
      have hB : N (d1v - sigma * Real.sqrt T) + N (-(d1v - sigma * Real.sqrt T)) - 1 =
          -0.00000029980098 := by
        rw [h2, neg_zero, N_zero_val]
        norm_num
      rw [hB]
      have hA' : N d1v + N (-d1v) - 1 = 0 := by linarith
      rw [hA']
      rw [abs_le]
      constructor <;> nlinarith
    · have hA : N d1v + N (-d1v) = 1 := N_add_N_neg h1
      have hB : N (d1v - sigma * Real.sqrt T) + N (-(d1v - sigma * Real.sqrt T)) = 1 :=
        N_add_N_neg h2
      have hz : S * (N d1v + N (-d1v) - 1) -
          K * Real.exp (-r * T) *
            (N (d1v - sigma * Real.sqrt T) + N (-(d1v - sigma * Real.sqrt T)) - 1) = 0 := by
        rw [hA, hB]
        ring
      rw [hz, abs_zero]
      positivity

/-- Claim C8: for every valid input (positive spot, strike, volatility and
maturity; at least two tree steps and an arbitrage-consistent risk-neutral
probability, which the engine's own validation requires), both pricing
strategies return Greeks with call delta between 0 and 1, put delta
between -1 and 0, nonnegative gamma and nonnegative vega. -/
theorem C8_greeks_invariants (S K T r sigma : ℝ) (otype : OptionType) (steps : ℕ)
    (hS : 0 < S) (hK : 0 < K) (hsig : 0 < sigma) (hT : 0 < T) (hsteps : 2 ≤ steps)
    (hp0 : 0 ≤ binP r sigma (binDt T steps)) (hp1 : binP r sigma (binDt T steps) ≤ 1) :
    (otype = OptionType.call →
        0 ≤ (calculateBlackScholes ⟨S, K, T, r, sigma, otype⟩).greeks.delta ∧
          (calculateBlackScholes ⟨S, K, T, r, sigma, otype⟩).greeks.delta ≤ 1 ∧
          0 ≤ (calculateBinomial ⟨S, K, T, r, sigma, otype⟩ steps).greeks.delta ∧
          (calculateBinomial ⟨S, K, T, r, sigma, otype⟩ steps).greeks.delta ≤ 1) ∧
      (otype = OptionType.put →
        -1 ≤ (calculateBlackScholes ⟨S, K, T, r, sigma, otype⟩).greeks.delta ∧
          (calculateBlackScholes ⟨S, K, T, r, sigma, otype⟩).greeks.delta ≤ 0 ∧
          -1 ≤ (calculateBinomial ⟨S, K, T, r, sigma, otype⟩ steps).greeks.delta ∧
          (calculateBinomial ⟨S, K, T, r, sigma, otype⟩ steps).greeks.delta ≤ 0) ∧
      0 ≤ (calculateBlackScholes ⟨S, K, T, r, sigma, otype⟩).greeks.gamma ∧
      0 ≤ (calculateBinomial ⟨S, K, T, r, sigma, otype⟩ steps).greeks.gamma ∧
      0 ≤ (calculateBlackScholes ⟨S, K, T, r, sigma, otype⟩).greeks.vega ∧
      0 ≤ (calculateBinomial ⟨S, K, T, r, sigma, otype⟩ steps).greeks.vega := by
  have hstp : (0 : ℝ) < steps := by
    have : 0 < steps := by omega
    exact_mod_cast this
  have hdt0 : 0 < binDt T steps := div_pos hT hstp
  have hu0 : 0 < binU sigma (binDt T steps) := binU_pos _ _
  have hd0 : 0 < binD sigma (binDt T steps) := binD_pos _ _
  have hdu : binD sigma (binDt T steps) < binU sigma (binDt T steps) :=
    binD_lt_binU _ _ hsig hdt0
  have hdsc : 0 < binDisc r (binDt T steps) := Real.exp_pos _
  have hmart := binMart r sigma (binDt T steps) hdu
  -- extraction of the lattice Greeks of calculateBinomial
  have hbind : (calculateBinomial ⟨S, K, T, r, sigma, otype⟩ steps).greeks.delta =
      (binLevel (binDisc r (binDt T steps)) (binP r sigma (binDt T steps))
          (binTerm S K (binU sigma (binDt T steps)) (binD sigma (binDt T steps)) steps otype)
          (steps - 1) 1 -
        binLevel (binDisc r (binDt T steps)) (binP r sigma (binDt T steps))
          (binTerm S K (binU sigma (binDt T steps)) (binD sigma (binDt T steps)) steps otype)
          (steps - 1) 0) /
      (S * binU sigma (binDt T steps) ^ 1 * binD sigma (binDt T steps) ^ 0 -
        S * binU sigma (binDt T steps) ^ 0 * binD sigma (binDt T steps) ^ 1) := rfl
  have hbing : (calculateBinomial ⟨S, K, T, r, sigma, otype⟩ steps).greeks.gamma =
      ((binLevel (binDisc r (binDt T steps)) (binP r sigma (binDt T steps))
            (binTerm S K (binU sigma (binDt T steps)) (binD sigma (binDt T steps)) steps otype)
            (steps - 2) 2 -
          binLevel (binDisc r (binDt T steps)) (binP r sigma (binDt T steps))
            (binTerm S K (binU sigma (binDt T steps)) (binD sigma (binDt T steps)) steps otype)
            (steps - 2) 1) /
          (S * binU sigma (binDt T steps) ^ 2 * binD sigma (binDt T steps) ^ 0 -
            S * binU sigma (binDt T steps) ^ 1 * binD sigma (binDt T steps) ^ 1) -
        (binLevel (binDisc r (binDt T steps)) (binP r sigma (binDt T steps))
            (binTerm S K (binU sigma (binDt T steps)) (binD sigma (binDt T steps)) steps otype)
            (steps - 2) 1 -
          binLevel (binDisc r (binDt T steps)) (binP r sigma (binDt T steps))
            (binTerm S K (binU sigma (binDt T steps)) (binD sigma (binDt T steps)) steps otype)
            (steps - 2) 0) /
          (S * binU sigma (binDt T steps) ^ 1 * binD sigma (binDt T steps) ^ 1 -
            S * binU sigma (binDt T steps) ^ 0 * binD sigma (binDt T steps) ^ 2)) /
      ((S * binU sigma (binDt T steps) ^ 2 * binD sigma (binDt T steps) ^ 0 -
        S * binU sigma (binDt T steps) ^ 0 * binD sigma (binDt T steps) ^ 2) / 2) := rfl
  have hbinv : (calculateBinomial ⟨S, K, T, r, sigma, otype⟩ steps).greeks.vega =
      (calculateBlackScholes ⟨S, K, T, r, sigma, otype⟩).greeks.vega := rfl
  have hbsg : (calculateBlackScholes ⟨S, K, T, r, sigma, otype⟩).greeks.gamma =
      Real.exp (-((Real.log (S / K) + (r + 0.5 * sigma ^ 2) * T) / (sigma * Real.sqrt T)) *
          ((Real.log (S / K) + (r + 0.5 * sigma ^ 2) * T) / (sigma * Real.sqrt T)) / 2) /
        (S * sigma * Real.sqrt (2 * Real.pi * T)) := rfl
  have hbsv : (calculateBlackScholes ⟨S, K, T, r, sigma, otype⟩).greeks.vega =
      S * Real.exp (-((Real.log (S / K) + (r + 0.5 * sigma ^ 2) * T) / (sigma * Real.sqrt T)) *
          ((Real.log (S / K) + (r + 0.5 * sigma ^ 2) * T) / (sigma * Real.sqrt T)) / 2) *
        Real.sqrt T / Real.sqrt (2 * Real.pi) / 100 := rfl
  set u := binU sigma (binDt T steps) with hud
  set d := binD sigma (binDt T steps) with hdd
  set pp := binP r sigma (binDt T steps) with hpd
  set dsc := binDisc r (binDt T steps) with hdscd
  have hden : S * u ^ 1 * d ^ 0 - S * u ^ 0 * d ^ 1 = S * (u - d) := by
    simp only [pow_one, pow_zero, mul_one, one_mul]
    ring
  have hdenpos : 0 < S * (u - d) := mul_pos hS (sub_pos.mpr hdu)
  have hvega : 0 ≤ (calculateBlackScholes ⟨S, K, T, r, sigma, otype⟩).greeks.vega := by
    rw [hbsv]
    have h1 : 0 ≤ S * Real.exp (-((Real.log (S / K) + (r + 0.5 * sigma ^ 2) * T) /
        (sigma * Real.sqrt T)) * ((Real.log (S / K) + (r + 0.5 * sigma ^ 2) * T) /
        (sigma * Real.sqrt T)) / 2) * Real.sqrt T :=
      mul_nonneg (mul_nonneg hS.le (Real.exp_pos _).le) (Real.sqrt_nonneg _)
    positivity
  refine ⟨?_, ?_, ?_, ?_, hvega, ?_⟩
  · intro heq
    subst heq
    have hbsd : (calculateBlackScholes ⟨S, K, T, r, sigma, OptionType.call⟩).greeks.delta =
        N ((Real.log (S / K) + (r + 0.5 * sigma ^ 2) * T) / (sigma * Real.sqrt T)) := rfl
    have hb := binDelta_call_bounds dsc pp S K u d steps hS hu0 hd0 hdu
      hdsc.le hp0 hp1 hmart (by omega)
    refine ⟨by rw [hbsd]; exact N_nonneg _, by rw [hbsd]; exact N_le_one _, ?_, ?_⟩
    · rw [hbind, hden]
      exact div_nonneg hb.1 hdenpos.le
    · rw [hbind, hden]
      exact (div_le_one hdenpos).mpr hb.2
  · intro heq
    subst heq
    have hbsd : (calculateBlackScholes ⟨S, K, T, r, sigma, OptionType.put⟩).greeks.delta =
        N ((Real.log (S / K) + (r + 0.5 * sigma ^ 2) * T) / (sigma * Real.sqrt T)) - 1 := rfl
    have hb := binDelta_put_bounds dsc pp S K u d steps hS hu0 hd0 hdu
      hdsc.le hp0 hp1 hmart (by omega)
    refine ⟨?_, ?_, ?_, ?_⟩
    · rw [hbsd]
      have := N_nonneg ((Real.log (S / K) + (r + 0.5 * sigma ^ 2) * T) / (sigma * Real.sqrt T))
      linarith
    · rw [hbsd]
      have := N_le_one ((Real.log (S / K) + (r + 0.5 * sigma ^ 2) * T) / (sigma * Real.sqrt T))
      linarith
    · rw [hbind, hden, le_div_iff₀ hdenpos]
      linarith [hb.1]
    · rw [hbind, hden, div_le_iff₀ hdenpos]
      linarith [hb.2]
  · rw [hbsg]
    exact div_nonneg (Real.exp_pos _).le
      (mul_nonneg (mul_nonneg hS.le hsig.le) (Real.sqrt_nonneg _))
  · rw [hbing]
    have hcr := binGamma_cross dsc pp S K u d steps otype hS hu0 hd0 hdu
      hdsc.le hp0 hp1 hsteps
    have hDH : S * u ^ 2 * d ^ 0 - S * u ^ 1 * d ^ 1 = S * u * (u - d) := by
      simp only [pow_two, pow_one, pow_zero, mul_one]
      ring
    have hDL : S * u ^ 1 * d ^ 1 - S * u ^ 0 * d ^ 2 = S * d * (u - d) := by
      simp only [pow_two, pow_one, pow_zero, one_mul]
      ring
    have hDD : S * u ^ 2 * d ^ 0 - S * u ^ 0 * d ^ 2 = S * (u + d) * (u - d) := by
      simp only [pow_two, pow_one, pow_zero, mul_one, one_mul]
      ring
    rw [hDH, hDL, hDD]
    have hDHpos : 0 < S * u * (u - d) := mul_pos (mul_pos hS hu0) (sub_pos.mpr hdu)
    have hDLpos : 0 < S * d * (u - d) := mul_pos (mul_pos hS hd0) (sub_pos.mpr hdu)
    have hslope : (binLevel dsc pp (binTerm S K u d steps otype) (steps - 2) 1 -
          binLevel dsc pp (binTerm S K u d steps otype) (steps - 2) 0) / (S * d * (u - d)) ≤
        (binLevel dsc pp (binTerm S K u d steps otype) (steps - 2) 2 -
          binLevel dsc pp (binTerm S K u d steps otype) (steps - 2) 1) / (S * u * (u - d)) := by
      rw [div_le_div_iff₀ hDLpos hDHpos]
      have hmul := mul_le_mul_of_nonneg_right hcr
        (le_of_lt (mul_pos hS (sub_pos.mpr hdu)))
      nlinarith [hmul]
    have hnum : 0 ≤ (binLevel dsc pp (binTerm S K u d steps otype) (steps - 2) 2 -
          binLevel dsc pp (binTerm S K u d steps otype) (steps - 2) 1) / (S * u * (u - d)) -
        (binLevel dsc pp (binTerm S K u d steps otype) (steps - 2) 1 -
          binLevel dsc pp (binTerm S K u d steps otype) (steps - 2) 0) / (S * d * (u - d)) := by
      linarith [hslope]
    have hDDpos : 0 ≤ S * (u + d) * (u - d) / 2 := by
      have := mul_pos (mul_pos hS (by linarith : (0 : ℝ) < u + d)) (sub_pos.mpr hdu)
      linarith
    exact div_nonneg hnum hDDpos
  · rw [hbinv]
    exact hvega

/-- Witness for C8 at a concrete input: the tree parameters at r = 0 give
a risk-neutral probability inside the unit interval. -/
theorem C8_greeks_invariants_witness :
    0 ≤ binP 0 1 (binDt 1 2) ∧ binP 0 1 (binDt 1 2) ≤ 1 ∧
      (OptionType.call = OptionType.call →
        0 ≤ (calculateBlackScholes ⟨1, 1, 1, 0, 1, OptionType.call⟩).greeks.delta ∧
          (calculateBlackScholes ⟨1, 1, 1, 0, 1, OptionType.call⟩).greeks.delta ≤ 1 ∧
          0 ≤ (calculateBinomial ⟨1, 1, 1, 0, 1, OptionType.call⟩ 2).greeks.delta ∧
          (calculateBinomial ⟨1, 1, 1, 0, 1, OptionType.call⟩ 2).greeks.delta ≤ 1) ∧
      0 ≤ (calculateBlackScholes ⟨1, 1, 1, 0, 1, OptionType.call⟩).greeks.gamma ∧
      0 ≤ (calculateBinomial ⟨1, 1, 1, 0, 1, OptionType.call⟩ 2).greeks.gamma ∧
      0 ≤ (calculateBlackScholes ⟨1, 1, 1, 0, 1, OptionType.call⟩).greeks.vega ∧
      0 ≤ (calculateBinomial ⟨1, 1, 1, 0, 1, OptionType.call⟩ 2).greeks.vega := by
  have hdt0 : 0 < binDt 1 2 := by
    unfold binDt
    norm_num
  have hdu := binD_lt_binU 1 (binDt 1 2) (by norm_num) hdt0
  have hd0 := binD_pos 1 (binDt 1 2)
  have hd1 : binD 1 (binDt 1 2) < 1 := by
    have h1 := one_lt_binU 1 (binDt 1 2) (by norm_num) hdt0
    unfold binD
    rw [div_lt_one (binU_pos 1 (binDt 1 2))]
    exact h1
  have hu1 := one_lt_binU 1 (binDt 1 2) (by norm_num) hdt0
  have hp0 : 0 ≤ binP 0 1 (binDt 1 2) := by
    unfold binP
    apply div_nonneg
    · rw [zero_mul, Real.exp_zero]
      linarith
    · linarith
  have hp1 : binP 0 1 (binDt 1 2) ≤ 1 := by
    unfold binP
    rw [div_le_one (by linarith)]
    rw [zero_mul, Real.exp_zero]
    linarith
  have h := C8_greeks_invariants 1 1 1 0 1 OptionType.call 2 (by norm_num) (by norm_num)
    (by norm_num) (by norm_num) (by norm_num) hp0 hp1
  exact ⟨hp0, hp1, h.1, h.2.2.1, h.2.2.2.1, h.2.2.2.2.1, h.2.2.2.2.2⟩

/-- Witness for C6 at a concrete input. -/
theorem C6_put_call_parity_witness :
    |(calculateBlackScholes ⟨100, 100, 1, 0.05, 0.2, OptionType.call⟩).price -
        (calculateBlackScholes ⟨100, 100, 1, 0.05, 0.2, OptionType.put⟩).price -
        (100 - 100 * Real.exp (-0.05 * 1))| ≤
      (100 + 100 * Real.exp (-0.05 * 1)) / 1000000 :=
  C6_put_call_parity 100 100 1 0.05 0.2 (by norm_num) (by norm_num) (by norm_num) (by norm_num)

/-- Claim C10: the binomial pricer delegates theta, vega and rho to the
closed form: for every input and step count they equal the
calculateBlackScholes values exactly. -/
theorem C10_binomial_delegates_theta_vega_rho (params : PricingParams) (steps : ℕ) :
    (calculateBinomial params steps).greeks.theta =
        (calculateBlackScholes params).greeks.theta ∧
      (calculateBinomial params steps).greeks.vega =
        (calculateBlackScholes params).greeks.vega ∧
      (calculateBinomial params steps).greeks.rho =
        (calculateBlackScholes params).greeks.rho :=
  ⟨rfl, rfl, rfl⟩

/-- Claim C4: degenerate inputs with zero maturity or zero volatility make
the Black-Scholes strategy fail with InvalidParams instead of returning a
price; in the real-number model every outcome is a typed failure or a
real price, never a NaN or an Infinity. -/
theorem C4_blackScholes_degenerate_invalid (params : OptionParams)
    (h : params.maturity = 0 ∨ params.volatility = 0) :
    blackScholesStrategy params = Except.error PricingError.invalidParams := by
  have hcond : params.spot ≤ 0 ∨ params.strike ≤ 0 ∨ params.volatility ≤ 0 ∨
      params.maturity ≤ 0 := by
    rcases h with h | h
    · exact Or.inr (Or.inr (Or.inr (le_of_eq h)))
    · exact Or.inr (Or.inr (Or.inl (le_of_eq h)))
  unfold blackScholesStrategy
  rw [if_pos hcond]

/-- Witness for C4 at a concrete input with zero maturity. -/
theorem C4_blackScholes_degenerate_invalid_witness :
    blackScholesStrategy ⟨100, 100, 0.2, 0.05, 0, OptionType.call, ExerciseStyle.european⟩ =
      Except.error PricingError.invalidParams :=
  C4_blackScholes_degenerate_invalid _ (Or.inl rfl)

/-- Counterexample to claim C3 as stated: an American-style request with
degenerate maturity fails with InvalidParams, not with UnsupportedStyle,
because parameters are validated before the style is examined. -/
theorem C3_unsupported_style_counterexample :
    OptionParams.style ⟨100, 100, 0.2, 0.05, 0, OptionType.call, ExerciseStyle.american⟩ =
        ExerciseStyle.american ∧
      blackScholesStrategy ⟨100, 100, 0.2, 0.05, 0, OptionType.call,
          ExerciseStyle.american⟩ ≠
        Except.error PricingError.unsupportedStyle := by
  constructor
  · rfl
  · have h : blackScholesStrategy ⟨100, 100, 0.2, 0.05, 0, OptionType.call,
        ExerciseStyle.american⟩ = Except.error PricingError.invalidParams := by
      unfold blackScholesStrategy
      rw [if_pos]
      exact Or.inr (Or.inr (Or.inr (by norm_num)))
    rw [h]
    intro hcon
    injection hcon with h2
    exact PricingError.noConfusion h2

/-- Claim C3 (amended): for every input with positive spot, strike,
volatility and maturity and American style, the Black-Scholes strategy
fails with UnsupportedStyle rather than returning a price. -/
theorem C3_unsupported_style_amended (params : OptionParams)
    (hS : 0 < params.spot) (hK : 0 < params.strike) (hsig : 0 < params.volatility)
    (hT : 0 < params.maturity) (hstyle : params.style = ExerciseStyle.american) :
    blackScholesStrategy params = Except.error PricingError.unsupportedStyle := by
  unfold blackScholesStrategy
  rw [if_neg, hstyle]
  push_neg
  exact ⟨by linarith, by linarith, by linarith, by linarith⟩

/-- Witness for the amended C3 at a concrete valid American input. -/
theorem C3_unsupported_style_amended_witness :
    blackScholesStrategy ⟨100, 100, 0.2, 0.05, 1, OptionType.call, ExerciseStyle.american⟩ =
      Except.error PricingError.unsupportedStyle :=
  C3_unsupported_style_amended _ (by norm_num) (by norm_num) (by norm_num) (by norm_num) rfl

/-- Claim C5: the binomial strategy fails with InvalidParams whenever the
risk-neutral probability p = (exp (r*dt) - d)/(u - d) lies outside the
unit interval. -/
theorem C5_binomial_arbitrage_invalid (params : OptionParams) (steps : ℕ)
    (h : binP params.rate params.volatility (binDt params.maturity steps) < 0 ∨
      1 < binP params.rate params.volatility (binDt params.maturity steps)) :
    binomialStrategy params steps = Except.error PricingError.invalidParams := by
  unfold binomialStrategy
  by_cases hvalid : params.spot ≤ 0 ∨ params.strike ≤ 0 ∨ params.volatility ≤ 0 ∨
      params.maturity ≤ 0
  · rw [if_pos hvalid]
  · rw [if_neg hvalid, if_pos h]

/-- Witness for C5 at a concrete input whose rate is so large that p
exceeds 1. -/
theorem C5_binomial_arbitrage_invalid_witness :
    (binP 2 1 (binDt 1 1) < 0 ∨ 1 < binP 2 1 (binDt 1 1)) ∧
      binomialStrategy ⟨100, 100, 1, 2, 1, OptionType.call, ExerciseStyle.european⟩ 1 =
        Except.error PricingError.invalidParams := by
  have hdt : binDt 1 1 = 1 := by
    unfold binDt
    norm_num
  have hx : (1 : ℝ) * Real.sqrt 1 = 1 := by
    rw [Real.sqrt_one, one_mul]
  have hu : binU 1 (binDt 1 1) = Real.exp 1 := by
    unfold binU
    rw [hdt, hx]
  have hd : binD 1 (binDt 1 1) = 1 / Real.exp 1 := by
    unfold binD
    rw [hu]
  have he1 : (1 : ℝ) < Real.exp 1 := by
    calc (1 : ℝ) = Real.exp 0 := Real.exp_zero.symm
      _ < Real.exp 1 := Real.exp_lt_exp.mpr (by norm_num)
  have he2 : Real.exp 1 < Real.exp 2 := Real.exp_lt_exp.mpr (by norm_num)
  have hdlt : 1 / Real.exp 1 < 1 := by
    rw [div_lt_one (Real.exp_pos 1)]
    exact he1
  have hp : 1 < binP 2 1 (binDt 1 1) := by
    unfold binP
    have h0 : (0 : ℝ) < Real.exp 1 - 1 / Real.exp 1 := by linarith
    have h21 : Real.exp (2 * (1 : ℝ)) = Real.exp 2 := by norm_num
    rw [hu, hd, hdt, h21, one_lt_div h0]
    linarith
  exact ⟨Or.inr hp,
    C5_binomial_arbitrage_invalid ⟨100, 100, 1, 2, 1, OptionType.call,
      ExerciseStyle.european⟩ 1 (Or.inr hp)⟩

lemma binP_rate_zero_bounds (sigma dt : ℝ) (hsig : 0 < sigma) (hdt : 0 < dt) :
    0 ≤ binP 0 sigma dt ∧ binP 0 sigma dt ≤ 1 := by
  have hdu := binD_lt_binU sigma dt hsig hdt
  have hu1 := one_lt_binU sigma dt hsig hdt
  have hd1 : binD sigma dt < 1 := by
    unfold binD
    rw [div_lt_one (binU_pos sigma dt)]
    exact hu1
  unfold binP
  rw [zero_mul, Real.exp_zero]
  constructor
  · apply div_nonneg <;> linarith
  · rw [div_le_one (by linarith)]
    linarith

/-- Claim C2: the spec-modelled binomial pricer supports both exercise
styles.  At each interior node the American value is the maximum of the
discounted expectation and the immediate exercise payoff at the node's
spot, the European value is the discounted expectation alone; the root
value is the returned price; and for European style the backward
induction coincides with the layers of the TypeScript calculateBinomial. -/
theorem C2_binomial_supports_both_styles (params : OptionParams) (steps : ℕ)
    (hvalid : ¬(params.spot ≤ 0 ∨ params.strike ≤ 0 ∨ params.volatility ≤ 0 ∨
      params.maturity ≤ 0))
    (hp : ¬(binP params.rate params.volatility (binDt params.maturity steps) < 0 ∨
      1 < binP params.rate params.volatility (binDt params.maturity steps))) :
    (∀ i j : ℕ, i < steps →
        binSpecNode params steps i j =
          (match params.style with
           | ExerciseStyle.european =>
               binDisc params.rate (binDt params.maturity steps) *
                 (binP params.rate params.volatility (binDt params.maturity steps) *
                     binSpecNode params steps (i + 1) (j + 1) +
                   (1 - binP params.rate params.volatility (binDt params.maturity steps)) *
                     binSpecNode params steps (i + 1) j)
           | ExerciseStyle.american =>
               max
                 (binDisc params.rate (binDt params.maturity steps) *
                   (binP params.rate params.volatility (binDt params.maturity steps) *
                       binSpecNode params steps (i + 1) (j + 1) +
                     (1 - binP params.rate params.volatility (binDt params.maturity steps)) *
                       binSpecNode params steps (i + 1) j))
                 (exercisePayoff params.option_type params.strike
                   (params.spot * binU params.volatility (binDt params.maturity steps) ^ j *
                     binD params.volatility (binDt params.maturity steps) ^ (i - j))))) ∧
      binomialStrategy params steps = Except.ok (binSpecNode params steps 0 0) ∧
      (params.style = ExerciseStyle.european → ∀ k j : ℕ,
        binSpecLevel (binDisc params.rate (binDt params.maturity steps))
            (binP params.rate params.volatility (binDt params.maturity steps))
            params.spot (binU params.volatility (binDt params.maturity steps))
            (binD params.volatility (binDt params.maturity steps)) params.strike
            params.option_type params.style steps k j =
          binLevel (binDisc params.rate (binDt params.maturity steps))
            (binP params.rate params.volatility (binDt params.maturity steps))
            (binTerm params.spot params.strike
              (binU params.volatility (binDt params.maturity steps))
              (binD params.volatility (binDt params.maturity steps)) steps
              params.option_type) k j) := by
  refine ⟨?_, ?_, ?_⟩
  · intro i j hi
    unfold binSpecNode
    have e1 : steps - i = (steps - (i + 1)) + 1 := by omega
    have e2 : steps - ((steps - (i + 1)) + 1) - j = i - j := by omega
    rw [e1]
    simp only [binSpecLevel, e2]
  · unfold binomialStrategy
    rw [if_neg hvalid, if_neg hp]
    rfl
  · intro hstyle k
    induction k with
    | zero =>
        intro j
        simp only [binSpecLevel, binLevel, binTerm, exercisePayoff]
        cases params.option_type <;> simp [max_comm]
    | succ k ih =>
        intro j
        rw [hstyle] at ih ⊢
        simp only [binSpecLevel, binLevel]
        rw [ih (j + 1), ih j]

/-- Witness for C2: the root-value conjunct at a concrete valid American
input. -/
theorem C2_binomial_supports_both_styles_witness :
    binomialStrategy ⟨1, 1, 1, 0, 1, OptionType.call, ExerciseStyle.american⟩ 2 =
      Except.ok (binSpecNode ⟨1, 1, 1, 0, 1, OptionType.call, ExerciseStyle.american⟩ 2 0 0) := by
  have hdt : (0 : ℝ) < binDt 1 2 := by
    unfold binDt
    norm_num
  have hb := binP_rate_zero_bounds 1 (binDt 1 2) (by norm_num) hdt
  exact (C2_binomial_supports_both_styles
    ⟨1, 1, 1, 0, 1, OptionType.call, ExerciseStyle.american⟩ 2
    (by push_neg; norm_num)
    (by rintro (h | h)
        · exact absurd h (not_lt.mpr hb.1)
        · exact absurd h (not_lt.mpr hb.2))).2.1

/-- Claim C9: the spec-modelled hedging simulation is deterministic in
its seed: two runs with the same seed and the same inputs produce the
identical HedgeResult. -/
theorem C9_simulation_deterministic (portfolio : Portfolio) (strategy : HedgeStrategy)
    (hedgeOption : Option OptionParams) (baseSpot : ℝ) (nScenarios rngSeed : ℕ)
    (r1 r2 : HedgeResult)
    (h1 : r1 = simulateHedgingEffectiveness portfolio strategy hedgeOption baseSpot
      nScenarios rngSeed)
    (h2 : r2 = simulateHedgingEffectiveness portfolio strategy hedgeOption baseSpot
      nScenarios rngSeed) :
    r1 = r2 := by
  rw [h1, h2]

/-- Witness for C9: two runs at a concrete portfolio, strategy, scenario
count and seed agree. -/
theorem C9_simulation_deterministic_witness :
    simulateHedgingEffectiveness [] HedgeStrategy.delta Option.none 100 5 42 =
      simulateHedgingEffectiveness [] HedgeStrategy.delta Option.none 100 5 42 :=
  C9_simulation_deterministic [] HedgeStrategy.delta Option.none 100 5 42 _ _ rfl rfl

end

end OptionsSim
